import Mathlib

/-!
Verification of the `nnrecommend` interaction-dataset layer
(`src/nnrecommend/dataset/__init__.py`, class `Dataset`).

A table of interactions is modelled as a `List (List Int)`: each inner list is
one row `(entity columns ..., label)`.  The id-range bookkeeping of the Python
class (`self.idrange`) is modelled as a `List Int` of cumulative upper bounds.
All operations of the class that the claims touch are transcribed below:
`normalize_ids`, `denormalize_ids`, `__remove_negative_ids`,
`get_random_negative_row`, `get_random_negative_rows`, `add_negative_sampling`,
`extract_test_dataset`, `create_adjacency_matrix` and `__remove_low`.
Randomness (`np.random.randint`) is modelled by an explicit stream of draws
(`List Nat`), and the unbounded `while` retry loops by a fuel parameter, so a
run that would diverge in Python is `none` here.
-/

namespace NNRec

/-- One step of `bisect.bisect_left`'s binary search (`while lo < hi` loop).
The fuel argument only drives the recursion; `hi - lo` shrinks at every step,
so any fuel `≥ hi - lo` computes the loop's result. -/
def bisectAux (a : List Int) (x : Int) : Nat → Nat → Nat → Nat
  | 0, lo, _ => lo
  | fuel + 1, lo, hi =>
    if lo < hi then
      let mid := (lo + hi) / 2
      if a.getD mid 0 < x then bisectAux a x fuel (mid + 1) hi
      else bisectAux a x fuel lo mid
    else lo

/-- `bisect.bisect_left(a, x)` from the Python standard library. -/
def bisect_left (a : List Int) (x : Int) : Nat :=
  bisectAux a x (a.length + 1) 0 a.length

/-- The inner `find` of `Dataset.normalize_ids`:
`idx = bisect_left(container, val)`; `-1` when out of range or not an exact
hit, the index otherwise. -/
def findNorm (container : List Int) (val : Int) : Int :=
  let idx := bisect_left container val
  if container.length ≤ idx ∨ container.getD idx 0 ≠ val then -1
  else (idx : Int)

/-- The inner `find` of `Dataset.denormalize_ids`: bounds-checked positional
lookup, `-1` on a miss. -/
def findDenorm (container : List Int) (v : Int) : Int :=
  if v < 0 ∨ (container.length : Int) ≤ v then -1
  else container.getD v.toNat 0

/-- The column loop of `normalize_ids` applied to one row:
`row[i] = find(colmapping, row[i]) + diff`, with `diff` accumulating the
mapping lengths.  Columns beyond the mappings (the label) are untouched. -/
def normRowAux : List (List Int) → Int → List Int → List Int
  | [], _, vs => vs
  | _ :: _, _, [] => []
  | m :: ms, diff, v :: vs => (findNorm m v + diff) :: normRowAux ms (diff + m.length) vs

/-- The column loop of `denormalize_ids` applied to one row:
`row[i] = find(colmapping, row[i] - diff)`. -/
def denormRowAux : List (List Int) → Int → List Int → List Int
  | [], _, vs => vs
  | _ :: _, _, [] => []
  | m :: ms, diff, v :: vs => findDenorm m (v - diff) :: denormRowAux ms (diff + m.length) vs

/-- `self.idrange`: after each column, `diff += len(colmapping)` and
`idrange[i] = diff`. -/
def idrangeAux : List (List Int) → Int → List Int
  | [], _ => []
  | m :: ms, diff => (diff + m.length) :: idrangeAux ms (diff + m.length)

/-- `Dataset.__remove_negative_ids`: keep the rows whose first two columns are
both `≥ 0`. -/
def removeNegativeIds (rows : List (List Int)) : List (List Int) :=
  rows.filter fun r => decide (0 ≤ r.getD 0 0) && decide (0 ≤ r.getD 1 0)

/-- Insert a value into a strictly sorted duplicate-free list, keeping it
strictly sorted and duplicate-free. -/
def insertSortedU (x : Int) : List Int → List Int
  | [] => [x]
  | y :: ys =>
    if x < y then x :: y :: ys
    else if x = y then y :: ys
    else y :: insertSortedU x ys

/-- `np.sort(np.unique(l))`: the strictly sorted list of the distinct values
of `l`. -/
def sortedUnique (l : List Int) : List Int := l.foldr insertSortedU []

/-- The mapping derived by `normalize_ids` when none is supplied:
for every column but the last, `np.sort(np.unique(column))`. -/
def derivedMapping (rows : List (List Int)) (ncols : Nat) : List (List Int) :=
  (List.range (ncols - 1)).map fun i => sortedUnique (rows.map fun r => r.getD i 0)

/-- `Dataset.normalize_ids(mapping, remove_missing)` given the mapping to use:
returns the transformed rows together with the freshly set `idrange`. -/
def normalizeIds (rows : List (List Int)) (mapping : List (List Int))
    (removeMissing : Bool) : List (List Int) × List Int :=
  let rows' := rows.map (normRowAux mapping 0)
  (if removeMissing then removeNegativeIds rows' else rows', idrangeAux mapping 0)

/-- `Dataset.denormalize_ids(mapping, remove_missing)`. -/
def denormalizeIds (rows : List (List Int)) (mapping : List (List Int))
    (removeMissing : Bool) : List (List Int) :=
  let rows' := rows.map (denormRowAux mapping 0)
  if removeMissing then removeNegativeIds rows' else rows'

/-- Monotonicity of a list of integers, stated positionally; this is what the
binary search of `bisect_left` relies on. -/
def MonoLe (m : List Int) : Prop :=
  ∀ i j : Nat, i ≤ j → j < m.length → m.getD i 0 ≤ m.getD j 0

/-- Cumulative width of the first `k` column mappings: the `diff` offset the
normalization loop has accumulated when it reaches column `k`. -/
def entityOffset (ms : List (List Int)) (k : Nat) : Int :=
  ((ms.take k).map fun m => (m.length : Int)).sum

/-- `v = np.random.randint(minv, maxv)` retried `while v is None or v == bad`.
One stream element is consumed per attempt; `np.random.randint` with an empty
range raises, modelled as `none`.  The fuel bounds the unbounded Python loop. -/
def drawNe (lo hi bad : Int) : Nat → List Nat → Option (Int × List Nat)
  | 0, _ => none
  | fuel + 1, s =>
    if lo < hi then
      let v := lo + (Int.ofNat (s.headD 0)) % (hi - lo)
      if v = bad then drawNe lo hi bad fuel s.tail else some (v, s.tail)
    else none

/-- The column loop of `get_random_negative_row`: for each `i` in
`1 .. len(idrange)-1`, draw in `[idrange[i-1], idrange[i])` a value different
from `row[i]`.  The bounds list is the (suffix of the) idrange, the second
list the corresponding row entries. -/
def negCols (fuel : Nat) : List Int → List Int → List Nat → Option (List Int × List Nat)
  | [], _, s => some ([], s)
  | [_], _, s => some ([], s)
  | _ :: _ :: _, [], _ => none
  | lo :: hi :: t, rv :: rvs, s =>
    match drawNe lo hi rv fuel s with
    | none => none
    | some (v, s') =>
      match negCols fuel (hi :: t) rvs s' with
      | none => none
      | some (vs, s'') => some (v :: vs, s'')

/-- `Dataset.get_random_negative_row(row)`: keeps `row[0]`, redraws every
other entity column inside its own id sub-range, leaves the trailing label
cell at `0` (the `np.zeros` initialisation). -/
def getRandomNegativeRow (fuel : Nat) (idr : List Int) (row : List Int)
    (s : List Nat) : Option (List Int × List Nat) :=
  match row with
  | [] => none
  | r0 :: rest =>
    if idr.length ≤ row.length then
      match idr with
      | [] => some ([r0], s)
      | _ :: _ =>
        match negCols fuel idr rest s with
        | none => none
        | some (vs, s') => some (r0 :: vs ++ [0], s')
    else none

/-- `itertools.combinations(l, 2)`: ordered pairs of entries, earlier entry
first. -/
def combPairs : List Int → List (Int × Int)
  | [] => []
  | x :: xs => (xs.map fun y => (x, y)) ++ combPairs xs

/-- `Dataset.__row_comb_in_container`: some pairwise combination of
`row[:-1]` is in the container. -/
def rowCombIn (container : Int × Int → Bool) (row : List Int) : Bool :=
  (combPairs row.dropLast).any container

/-- The `while nrow is None or self.__row_comb_in_container(...)` retry loop
of `get_random_negative_rows`, with fuel `fo` on the outer retries and `fi`
inside each draw. -/
def negRowChecked (container : Int × Int → Bool) (idr : List Int)
    (row : List Int) (fi : Nat) : Nat → List Nat → Option (List Int × List Nat)
  | 0, _ => none
  | fo + 1, s =>
    match getRandomNegativeRow fi idr row s with
    | none => none
    | some (nrow, s') =>
      if rowCombIn container nrow then negRowChecked container idr row fi fo s'
      else some (nrow, s')

/-- `Dataset.get_random_negative_rows(container, row, num)`: `num` checked
negative rows for one source row. -/
def negRowsN (container : Int × Int → Bool) (idr : List Int) (row : List Int)
    (fi fo : Nat) : Nat → List Nat → Option (List (List Int) × List Nat)
  | 0, s => some ([], s)
  | n + 1, s =>
    match negRowChecked container idr row fi fo s with
    | none => none
    | some (nrow, s') =>
      match negRowsN container idr row fi fo n s' with
      | none => none
      | some (rest, s'') => some (nrow :: rest, s'')

/-- The row loop of `add_negative_sampling`: `np.repeat` followed by the
per-row block assignment `data[1+n*i : n*(i+1), :]` lays the table out as
`[orig0, negs0..., orig1, negs1, ...]`. -/
def addNegAux (container : Int × Int → Bool) (idr : List Int) (fi fo num : Nat) :
    List (List Int) → List Nat → Option (List (List Int) × List Nat)
  | [], s => some ([], s)
  | r :: rs, s =>
    match negRowsN container idr r fi fo num s with
    | none => none
    | some (negs, s') =>
      match addNegAux container idr fi fo num rs s' with
      | none => none
      | some (rest, s'') => some (r :: (negs ++ rest), s'')

/-- `Dataset.add_negative_sampling(container, num)`; `num <= 0` is a no-op. -/
def addNegativeSampling (container : Int × Int → Bool) (idr : List Int)
    (fi fo num : Nat) (rows : List (List Int)) (s : List Nat) :
    Option (List (List Int) × List Nat) :=
  if num = 0 then some (rows, s) else addNegAux container idr fi fo num rows s

/-- Append an index to a user's entry of the insertion-ordered dictionary
`rowsbyuser`, creating the entry at the end if the user is new. -/
def dictAppend (d : List (Int × List Nat)) (u : Int) (i : Nat) :
    List (Int × List Nat) :=
  match d with
  | [] => [(u, [i])]
  | (v, l) :: t => if v = u then (v, l ++ [i]) :: t else (v, l) :: dictAppend t u i

/-- The first loop of `extract_test_dataset`: `rowsbyuser`, mapping each user
to the indices of its positive-labeled rows, users in first-seen order. -/
def buildUserRows (rows : List (List Int)) : List (Int × List Nat) :=
  rows.enum.foldl
    (fun d p => if 0 < p.2.getLastD 0 then dictAppend d (p.2.getD 0 0) p.1 else d) []

/-- Positional dictionary lookup (`rowsbyuser[u]`), the empty list when the
user has no entry yet. -/
def lookupD (d : List (Int × List Nat)) (u : Int) : List Nat :=
  match d with
  | [] => []
  | (v, l) :: t => if v = u then l else lookupD t u

/-- The second loop of `extract_test_dataset`: collect
`userrows[-num_user_interactions:]` from every user holding at least
`num_user_interactions + min_keep_user_interactions` positive rows. -/
def extractIndices (rows : List (List Int)) (numU minK : Nat) : List Nat :=
  (buildUserRows rows).foldl
    (fun acc p =>
      if p.2.length < numU + minK then acc
      else acc ++ p.2.drop (p.2.length - numU)) []

/-- `Dataset.extract_test_dataset` on an already-normalized table: the first
component is the returned test table with its shared `idrange`, the second
the remaining rows (`np.delete` keeps the others in order). -/
def extractTestDataset (rows : List (List Int)) (idr : List Int)
    (numU minK : Nat) : (List (List Int) × List Int) × List (List Int) :=
  let idxs := extractIndices rows numU minK
  ((idxs.map fun i => rows.getD i [], idr),
   (rows.enum.filter fun p => decide (p.1 ∉ idxs)).map Prod.snd)

/-- The indices of the positive-labeled rows of user `u`, in table order;
used to state what `extract_test_dataset` must select. -/
def posRowIndices (rows : List (List Int)) (u : Int) : List Nat :=
  (rows.enum.filter fun p =>
    decide (p.2.getD 0 0 = u) && decide (0 < p.2.getLastD 0)).map Prod.fst

/-- The keys written by `create_adjacency_matrix`'s loop
(`matrix[user, item] = 1; matrix[item, user] = 1`). -/
def adjacencyEntries (rows : List (List Int)) : List (Int × Int) :=
  rows.foldl (fun acc r => (r.getD 1 0, r.getD 0 0) :: (r.getD 0 0, r.getD 1 0) :: acc) []

/-- `Dataset.create_adjacency_matrix` on a normalized table: the matrix size
(`self.idrange[1]`) together with the set of written keys. -/
def createAdjacencyMatrix (rows : List (List Int)) (idr : List Int) :
    Int × List (Int × Int) :=
  (idr.getD 1 0, adjacencyEntries rows)

/-- A cell of the finished sparse matrix: `1` on every written key, `0`
elsewhere (`dok_matrix` default). -/
def adjEntry (rows : List (List Int)) (a b : Int) : Int :=
  if (a, b) ∈ adjacencyEntries rows then 1 else 0

/-- `matrix.sum(0)` at column `j`: the column sum of an abstract `size × size`
matrix. -/
def matrixColSum (m : Int → Int → Int) (size : Nat) (j : Int) : Int :=
  ((List.range size).map fun a => m (Int.ofNat a) j).sum

/-- `Dataset.__remove_low(matrix, lim, idx)`: `counts = matrix.sum(0)`,
`cond = counts[interactions[:, idx]] > lim`, keep the `cond` rows and return
`np.count_nonzero(cond == False)`. -/
def removeLowAux (m : Int → Int → Int) (size : Nat) (lim : Int) (idx : Nat)
    (rows : List (List Int)) : List (List Int) × Nat :=
  let counts := (List.range size).map fun j => matrixColSum m size (Int.ofNat j)
  let cond := rows.map fun r => decide (lim < counts.getD (r.getD idx 0).toNat 0)
  ((rows.zip cond).filterMap (fun p => if p.2 then some p.1 else none),
   (cond.filter fun b => !b).length)

/-- `Dataset.remove_low_users(matrix, lim)`. -/
def removeLowUsers (m : Int → Int → Int) (size : Nat) (lim : Int)
    (rows : List (List Int)) : List (List Int) × Nat :=
  removeLowAux m size lim 0 rows

/-- `Dataset.remove_low_items(matrix, lim)`. -/
def removeLowItems (m : Int → Int → Int) (size : Nat) (lim : Int)
    (rows : List (List Int)) : List (List Int) × Nat :=
  removeLowAux m size lim 1 rows

/-- A small synthetic 3x3 matrix exercising `remove_low`: a single symmetric
edge between ids 1 and 2, id 0 isolated (degree 0). -/
def degMatrix : Int → Int → Int :=
  fun a b => if (a = 1 ∧ b = 2) ∨ (a = 2 ∧ b = 1) then 1 else 0

/-! ### Binary search -/

/-- Cells of a list are members of it. -/
theorem getD_mem_of_lt {l : List Int} {i : Nat} (h : i < l.length) :
    l.getD i 0 ∈ l := by
  rw [List.getD_eq_getElem l 0 h]
  exact List.get_mem l i h

/-- The partition property of `bisect_left`'s loop: with enough fuel and a
monotone list, everything strictly left of the result is `< x` and everything
from the result up to `hi` is `≥ x`. -/
theorem bisectAux_spec (a : List Int) (x : Int) (hm : MonoLe a) :
    ∀ fuel lo hi, lo ≤ hi → hi ≤ a.length → hi - lo ≤ fuel →
      lo ≤ bisectAux a x fuel lo hi ∧ bisectAux a x fuel lo hi ≤ hi ∧
      (∀ i, lo ≤ i → i < bisectAux a x fuel lo hi → a.getD i 0 < x) ∧
      (∀ i, bisectAux a x fuel lo hi ≤ i → i < hi → x ≤ a.getD i 0) := by
  intro fuel
  induction fuel with
  | zero =>
    intro lo hi h1 h2 h3
    have hlh : lo = hi := by omega
    subst hlh
    simp only [bisectAux]
    exact ⟨le_refl _, le_refl _, fun i h1 h2 => by omega, fun i h1 h2 => by omega⟩
  | succ fuel ih =>
    intro lo hi h1 h2 h3
    by_cases hlt : lo < hi
    · have hmid1 : lo ≤ (lo + hi) / 2 := by omega
      have hmid2 : (lo + hi) / 2 < hi := by omega
      by_cases hv : a.getD ((lo + hi) / 2) 0 < x
      · have heq : bisectAux a x (fuel + 1) lo hi = bisectAux a x fuel ((lo + hi) / 2 + 1) hi := by
          simp only [bisectAux, if_pos hlt, if_pos hv]
        obtain ⟨i1, i2, i3, i4⟩ := ih ((lo + hi) / 2 + 1) hi (by omega) h2 (by omega)
        rw [heq]
        refine ⟨by omega, i2, fun i hi1 hi2 => ?_, i4⟩
        by_cases hc : i ≤ (lo + hi) / 2
        · exact lt_of_le_of_lt (hm i ((lo + hi) / 2) hc (by omega)) hv
        · exact i3 i (by omega) hi2
      · have heq : bisectAux a x (fuel + 1) lo hi = bisectAux a x fuel lo ((lo + hi) / 2) := by
          simp only [bisectAux, if_pos hlt, if_neg hv]
        obtain ⟨i1, i2, i3, i4⟩ := ih lo ((lo + hi) / 2) (by omega) (by omega) (by omega)
        rw [heq]
        refine ⟨i1, by omega, i3, fun i hi1 hi2 => ?_⟩
        by_cases hc : i < (lo + hi) / 2
        · exact i4 i hi1 hc
        · exact le_trans (not_lt.mp hv) (hm ((lo + hi) / 2) i (by omega) (by omega))
    · have heq : bisectAux a x (fuel + 1) lo hi = lo := by
        simp only [bisectAux, if_neg hlt]
      have hlh : lo = hi := by omega
      subst hlh
      rw [heq]
      exact ⟨le_refl _, le_refl _, fun i h1 h2 => by omega, fun i h1 h2 => by omega⟩

/-- On a monotone list containing `x`, `bisect_left` lands on an exact hit. -/
theorem bisect_left_found {a : List Int} {x : Int} (hm : MonoLe a) (hx : x ∈ a) :
    bisect_left a x < a.length ∧ a.getD (bisect_left a x) 0 = x := by
  obtain ⟨⟨p, hp⟩, hpe⟩ := List.mem_iff_get.mp hx
  have hpd : a.getD p 0 = x := by
    rw [List.getD_eq_getElem a 0 hp]
    exact hpe
  obtain ⟨i1, i2, i3, i4⟩ :=
    bisectAux_spec a x hm (a.length + 1) 0 a.length (by omega) (le_refl _) (by omega)
  set r := bisectAux a x (a.length + 1) 0 a.length with hr
  have hrp : r ≤ p := by
    by_contra hc
    have := i3 p (by omega) (by omega)
    omega
  have hrlen : r < a.length := lt_of_le_of_lt hrp hp
  have hxr : x ≤ a.getD r 0 := i4 r (le_refl _) hrlen
  have hrx : a.getD r 0 ≤ x := hpd ▸ hm r p hrp hp
  exact ⟨hrlen, le_antisymm hrx hxr⟩

/-- `find` of `normalize_ids` on a monotone mapping containing the value:
returns the value's index. -/
theorem findNorm_of_mem {a : List Int} {x : Int} (hm : MonoLe a) (hx : x ∈ a) :
    ∃ k : Nat, findNorm a x = (k : Int) ∧ k < a.length ∧ a.getD k 0 = x := by
  obtain ⟨hlt, heq⟩ := bisect_left_found hm hx
  refine ⟨bisect_left a x, ?_, hlt, heq⟩
  simp only [findNorm]
  rw [if_neg]
  push_neg
  exact ⟨by omega, heq⟩

/-- `find` of `normalize_ids` on a value absent from the mapping: `-1`,
whatever the mapping's order. -/
theorem findNorm_of_not_mem {a : List Int} {x : Int} (hx : x ∉ a) :
    findNorm a x = -1 := by
  simp only [findNorm]
  rw [if_pos]
  by_cases hc : a.length ≤ bisect_left a x
  · exact Or.inl hc
  · refine Or.inr fun he => hx ?_
    exact he ▸ getD_mem_of_lt (by omega)

/-! ### Sorted deduplication (`np.sort(np.unique(...))`) -/

theorem mem_insertSortedU {a x : Int} : ∀ l, a ∈ insertSortedU x l ↔ a = x ∨ a ∈ l := by
  intro l
  induction l with
  | nil => simp [insertSortedU]
  | cons y ys ih =>
    by_cases h1 : x < y
    · simp only [insertSortedU, if_pos h1, List.mem_cons]
    · by_cases h2 : x = y
      · simp only [insertSortedU, if_neg h1, if_pos h2, List.mem_cons]
        subst h2
        tauto
      · simp only [insertSortedU, if_neg h1, if_neg h2, List.mem_cons, ih]
        tauto

theorem sorted_insertSortedU {x : Int} :
    ∀ l, l.Sorted (· < ·) → (insertSortedU x l).Sorted (· < ·) := by
  intro l
  induction l with
  | nil => simp [insertSortedU]
  | cons y ys ih =>
    intro hs
    rw [List.sorted_cons] at hs
    obtain ⟨hy, hys⟩ := hs
    by_cases h1 : x < y
    · simp only [insertSortedU, if_pos h1]
      rw [List.sorted_cons]
      refine ⟨fun b hb => ?_, List.sorted_cons.mpr ⟨hy, hys⟩⟩
      rcases List.mem_cons.mp hb with h | h
      · exact h ▸ h1
      · exact lt_trans h1 (hy b h)
    · by_cases h2 : x = y
      · simp only [insertSortedU, if_neg h1, if_pos h2]
        exact List.sorted_cons.mpr ⟨hy, hys⟩
      · simp only [insertSortedU, if_neg h1, if_neg h2]
        rw [List.sorted_cons]
        refine ⟨fun b hb => ?_, ih hys⟩
        rcases (mem_insertSortedU ys).mp hb with h | h
        · subst h
          omega
        · exact hy b h

theorem sorted_sortedUnique (l : List Int) : (sortedUnique l).Sorted (· < ·) := by
  induction l with
  | nil => simp [sortedUnique]
  | cons y ys ih => exact sorted_insertSortedU _ ih

theorem mem_sortedUnique {a : Int} : ∀ l : List Int, a ∈ sortedUnique l ↔ a ∈ l := by
  intro l
  induction l with
  | nil => simp [sortedUnique]
  | cons y ys ih =>
    simp only [sortedUnique, List.foldr_cons, List.mem_cons]
    rw [show List.foldr insertSortedU [] ys = sortedUnique ys from rfl] at *
    rw [mem_insertSortedU, ih]

theorem monoLe_of_sorted {l : List Int} (h : l.Sorted (· ≤ ·)) : MonoLe l := by
  intro i j hij hj
  rcases Nat.lt_or_ge i j with hlt | hge
  · rw [List.getD_eq_getElem l 0 (by omega), List.getD_eq_getElem l 0 hj]
    exact h.rel_get_of_lt (a := ⟨i, by omega⟩) (b := ⟨j, hj⟩) hlt
  · have : i = j := by omega
    subst this
    exact le_refl _

theorem monoLe_sortedUnique (l : List Int) : MonoLe (sortedUnique l) :=
  monoLe_of_sorted ((sorted_sortedUnique l).imp le_of_lt)

/-! ### The column loops of `normalize_ids` / `denormalize_ids` -/

theorem entityOffset_zero (ms : List (List Int)) : entityOffset ms 0 = 0 := by
  simp [entityOffset]

theorem entityOffset_cons_succ (m : List Int) (ms : List (List Int)) (k : Nat) :
    entityOffset (m :: ms) (k + 1) = (m.length : Int) + entityOffset ms k := by
  simp [entityOffset, List.take_succ_cons]

theorem entityOffset_nonneg (ms : List (List Int)) (k : Nat) :
    0 ≤ entityOffset ms k := by
  refine List.sum_nonneg fun x hx => ?_
  obtain ⟨m, _, hm⟩ := List.mem_map.mp hx
  omega

theorem entityOffset_succ_of_lt {ms : List (List Int)} {k : Nat} (h : k < ms.length) :
    entityOffset ms (k + 1) = entityOffset ms k + ((ms.getD k []).length : Int) := by
  induction ms generalizing k with
  | nil => simp at h
  | cons m ms ih =>
    cases k with
    | zero => simp [entityOffset_cons_succ, entityOffset_zero]
    | succ k =>
      rw [entityOffset_cons_succ, entityOffset_cons_succ, ih (by simpa using h),
        List.getD_cons_succ]
      ring

theorem entityOffset_le_succ (ms : List (List Int)) (k : Nat) :
    entityOffset ms k ≤ entityOffset ms (k + 1) := by
  rcases Nat.lt_or_ge k ms.length with h | h
  · rw [entityOffset_succ_of_lt h]
    omega
  · have : ∀ k', ms.length ≤ k' → entityOffset ms k' = entityOffset ms ms.length := by
      intro k' hk'
      simp [entityOffset, List.take_of_length_le hk', List.take_length]
    rw [this k h, this (k + 1) (by omega)]

theorem entityOffset_mono (ms : List (List Int)) {k k' : Nat} (h : k ≤ k') :
    entityOffset ms k ≤ entityOffset ms k' := by
  induction k' with
  | zero =>
    have : k = 0 := by omega
    simp [this]
  | succ k' ih =>
    rcases Nat.lt_or_ge k (k' + 1) with h' | h'
    · exact le_trans (ih (by omega)) (entityOffset_le_succ ms k')
    · have : k = k' + 1 := by omega
      simp [this]

theorem normRowAux_length : ∀ (ms : List (List Int)) (diff : Int) (r : List Int),
    (normRowAux ms diff r).length = r.length := by
  intro ms
  induction ms with
  | nil => intro diff r; rfl
  | cons m ms ih =>
    intro diff r
    cases r with
    | nil => rfl
    | cons v vs => simp [normRowAux, ih]

theorem normRowAux_getD_lt : ∀ (ms : List (List Int)) (diff : Int) (r : List Int) (k : Nat),
    k < ms.length → k < r.length →
    (normRowAux ms diff r).getD k 0 =
      findNorm (ms.getD k []) (r.getD k 0) + diff + entityOffset ms k := by
  intro ms
  induction ms with
  | nil => intro diff r k h; simp at h
  | cons m ms ih =>
    intro diff r k hk hr
    cases r with
    | nil => simp at hr
    | cons v vs =>
      cases k with
      | zero => simp [normRowAux, entityOffset_zero]
      | succ k =>
        have h1 : k < ms.length := by simpa using hk
        have h2 : k < vs.length := by simpa using hr
        simp only [normRowAux, List.getD_cons_succ, entityOffset_cons_succ]
        rw [ih (diff + m.length) vs k h1 h2]
        ring

theorem normRowAux_getD_ge : ∀ (ms : List (List Int)) (diff : Int) (r : List Int) (k : Nat),
    ms.length ≤ k → (normRowAux ms diff r).getD k 0 = r.getD k 0 := by
  intro ms
  induction ms with
  | nil => intro diff r k _; rfl
  | cons m ms ih =>
    intro diff r k hk
    cases r with
    | nil => rfl
    | cons v vs =>
      cases k with
      | zero => simp at hk
      | succ k =>
        simp only [normRowAux, List.getD_cons_succ]
        exact ih (diff + m.length) vs k (by simpa using hk)

/-- Round trip of one row through the two column loops: `denormalize_ids`
undoes `normalize_ids` cell by cell when every cell's raw value is present in
its (monotone) column mapping. -/
theorem denormRow_normRow : ∀ (ms : List (List Int)) (diff : Int) (r : List Int),
    (∀ k : Nat, k < ms.length → k < r.length →
      r.getD k 0 ∈ ms.getD k [] ∧ MonoLe (ms.getD k [])) →
    denormRowAux ms diff (normRowAux ms diff r) = r := by
  intro ms
  induction ms with
  | nil => intro diff r _; rfl
  | cons m ms ih =>
    intro diff r hall
    cases r with
    | nil => rfl
    | cons v vs =>
      obtain ⟨hv, hmono⟩ := hall 0 (by simp) (by simp)
      simp only [List.getD_cons_zero] at hv hmono
      obtain ⟨j, hj, hjlen, hjval⟩ := findNorm_of_mem hmono hv
      simp only [normRowAux, denormRowAux]
      have hd : findNorm m v + diff - diff = findNorm m v := by ring
      rw [hd, hj]
      have hden : findDenorm m (j : Int) = v := by
        simp only [findDenorm]
        rw [if_neg (by push_neg; constructor <;> omega)]
        simpa using hjval
      rw [hden, ih (diff + m.length) vs ?_]
      intro k h1 h2
      have := hall (k + 1) (by simpa using h1) (by simpa using h2)
      simpa using this

theorem idrangeAux_length : ∀ (ms : List (List Int)) (diff : Int),
    (idrangeAux ms diff).length = ms.length := by
  intro ms
  induction ms with
  | nil => intro diff; rfl
  | cons m ms ih => intro diff; simp [idrangeAux, ih]

theorem idrangeAux_getD : ∀ (ms : List (List Int)) (diff : Int) (k : Nat),
    k < ms.length →
    (idrangeAux ms diff).getD k 0 = diff + entityOffset ms (k + 1) := by
  intro ms
  induction ms with
  | nil => intro diff k h; simp at h
  | cons m ms ih =>
    intro diff k hk
    cases k with
    | zero => simp [idrangeAux, entityOffset_cons_succ, entityOffset_zero]
    | succ k =>
      simp only [idrangeAux, List.getD_cons_succ, entityOffset_cons_succ]
      rw [ih (diff + m.length) k (by simpa using hk)]
      ring

theorem getLastD_ne_nil {α : Type} {l : List α} (h : l ≠ []) (d d' : α) :
    l.getLastD d = l.getLastD d' := by
  cases l with
  | nil => exact absurd rfl h
  | cons a t => rw [List.getLastD_cons, List.getLastD_cons]

theorem idrangeAux_getLast : ∀ (ms : List (List Int)) (diff : Int), ms ≠ [] →
    (idrangeAux ms diff).getLastD 0 = diff + entityOffset ms ms.length := by
  intro ms
  induction ms with
  | nil => intro diff h; simp at h
  | cons m ms ih =>
    intro diff _
    by_cases hms : ms = []
    · subst hms
      simp [idrangeAux, entityOffset_cons_succ, entityOffset_zero, List.getLastD_cons]
    · have hne' : idrangeAux ms (diff + (m.length : Int)) ≠ [] := by
        intro hc
        apply hms
        have hl := idrangeAux_length ms (diff + (m.length : Int))
        rw [hc] at hl
        exact List.length_eq_zero.mp hl.symm
      have h1 : idrangeAux (m :: ms) diff
          = (diff + (m.length : Int)) :: idrangeAux ms (diff + (m.length : Int)) := rfl
      rw [h1, List.getLastD_cons, getLastD_ne_nil hne' _ 0, ih (diff + (m.length : Int)) hms]
      have h2 : (m :: ms).length = ms.length + 1 := rfl
      rw [h2, entityOffset_cons_succ]
      ring

theorem derivedMapping_length (rows : List (List Int)) (ncols : Nat) :
    (derivedMapping rows ncols).length = ncols - 1 := by
  simp [derivedMapping]

theorem derivedMapping_getD {rows : List (List Int)} {ncols k : Nat} (h : k < ncols - 1) :
    (derivedMapping rows ncols).getD k [] =
      sortedUnique (rows.map fun r => r.getD k 0) := by
  have hlen : ((List.range (ncols - 1)).map fun i =>
      sortedUnique (rows.map fun r => r.getD i 0)).length = ncols - 1 := by simp
  rw [derivedMapping, List.getD_eq_getElem _ _ (by omega : k < _)]
  simp

/-- Shape of an entity cell after normalization with the derived mapping:
its own rank inside its column's mapping, shifted by the cumulative width of
the previous columns. -/
theorem normalized_cell_spec {rows : List (List Int)} {n : Nat} {r : List Int}
    (hr : r ∈ rows) (hlen : r.length = n) {k : Nat} (hk : k < n - 1) :
    ∃ j : Nat,
      (normRowAux (derivedMapping rows n) 0 r).getD k 0
        = (j : Int) + entityOffset (derivedMapping rows n) k ∧
      (j : Int) < (((derivedMapping rows n).getD k []).length : Int) := by
  have hkM : k < (derivedMapping rows n).length := by
    rw [derivedMapping_length]; omega
  have hkr : k < r.length := by omega
  have hMk : (derivedMapping rows n).getD k []
      = sortedUnique (rows.map fun q => q.getD k 0) := derivedMapping_getD hk
  have hin : r.getD k 0 ∈ (derivedMapping rows n).getD k [] := by
    rw [hMk, mem_sortedUnique]
    exact List.mem_map_of_mem _ hr
  have hmono : MonoLe ((derivedMapping rows n).getD k []) := by
    rw [hMk]; exact monoLe_sortedUnique _
  obtain ⟨j, hj1, hj2, _⟩ := findNorm_of_mem hmono hin
  refine ⟨j, ?_, by exact_mod_cast hj2⟩
  rw [normRowAux_getD_lt _ 0 r k hkM hkr, hj1]
  ring

/-- `__remove_negative_ids` drops nothing after a derived-mapping
normalization: both gating cells are ranks, hence nonnegative. -/
theorem removeNegativeIds_norm_eq {rows : List (List Int)} {n : Nat}
    (hrect : ∀ r ∈ rows, r.length = n) (hn : 3 ≤ n) :
    removeNegativeIds (rows.map (normRowAux (derivedMapping rows n) 0)) =
      rows.map (normRowAux (derivedMapping rows n) 0) := by
  apply List.filter_eq_self.mpr
  intro r' hr'
  obtain ⟨r, hr, rfl⟩ := List.mem_map.mp hr'
  obtain ⟨j0, hj0, _⟩ := normalized_cell_spec hr (hrect r hr) (k := 0) (by omega)
  obtain ⟨j1, hj1, _⟩ := normalized_cell_spec hr (hrect r hr) (k := 1) (by omega)
  have h0 := entityOffset_nonneg (derivedMapping rows n) 0
  have h1 := entityOffset_nonneg (derivedMapping rows n) 1
  simp only [Bool.and_eq_true, decide_eq_true_eq]
  constructor
  · rw [hj0]; omega
  · rw [hj1]; omega

/-- C4 counterexample: on `[(0,0,1),(0,1,1),(1,0,1)]` the derived mapping has
only two distinct items, so `normalize_ids()` sets `idrange = [2,4]`, not the
`[2,5]` the claim states. -/
theorem c4_idrange_counterexample :
    (normalizeIds [[0,0,1],[0,1,1],[1,0,1]]
        (derivedMapping [[0,0,1],[0,1,1],[1,0,1]] 3) true).2 = [2, 4] ∧
    (normalizeIds [[0,0,1],[0,1,1],[1,0,1]]
        (derivedMapping [[0,0,1],[0,1,1],[1,0,1]] 3) true).2 ≠ [2, 5] := by
  decide

/-- C4 amended: on `[(0,0,1),(0,1,1),(1,0,1)]`, `normalize_ids()` yields
`id_range = [2,4]` (2 users at `[0,2)`, 2 items at `[2,4)`) and the rows
become `(0,2,1)`, `(0,3,1)`, `(1,2,1)`. -/
theorem c4_normalize_example :
    normalizeIds [[0,0,1],[0,1,1],[1,0,1]]
        (derivedMapping [[0,0,1],[0,1,1],[1,0,1]] 3) true
      = ([[0,2,1],[0,3,1],[1,2,1]], [2,4]) := by
  decide

/-- C6: on the row `(0,5,1)` with explicit mapping `[[0],[7]]`, the item
value `5` misses the item mapping (`find` returns `-1`), yet the stored cell
is `-1 + diff = 0`, not the sentinel `-1`, and with `remove_missing=True` the
row is kept: the `+ diff` offset destroys the sentinel for every column after
the first, contradicting the documented `remove_missing` behavior. -/
theorem c6_unmapped_item_keeps_row :
    findNorm [7] 5 = -1 ∧
    normalizeIds [[0,5,1]] [[0],[7]] true = ([[0,0,1]], [1,2]) := by
  decide

/-- C10: the mapping derived by `normalize_ids()` covers every raw value of
every entity column, so no lookup misses and `remove_missing=True` drops no
row. -/
theorem c10_derived_mapping_no_missing {rows : List (List Int)} {n : Nat}
    (hrect : ∀ r ∈ rows, r.length = n) (hn : 3 ≤ n) :
    (∀ r ∈ rows, ∀ k : Nat, k < n - 1 →
      r.getD k 0 ∈ (derivedMapping rows n).getD k []) ∧
    (∀ r ∈ rows, ∀ k : Nat, k < n - 1 →
      findNorm ((derivedMapping rows n).getD k []) (r.getD k 0) ≠ -1) ∧
    (normalizeIds rows (derivedMapping rows n) true).1.length = rows.length := by
  have hmem : ∀ r ∈ rows, ∀ k : Nat, k < n - 1 →
      r.getD k 0 ∈ (derivedMapping rows n).getD k [] := by
    intro r hr k hk
    rw [derivedMapping_getD hk, mem_sortedUnique]
    exact List.mem_map_of_mem _ hr
  refine ⟨hmem, fun r hr k hk => ?_, ?_⟩
  · have hmono : MonoLe ((derivedMapping rows n).getD k []) := by
      rw [derivedMapping_getD hk]; exact monoLe_sortedUnique _
    obtain ⟨j, hj1, _, _⟩ := findNorm_of_mem hmono (hmem r hr k hk)
    rw [hj1]
    omega
  · show (removeNegativeIds (rows.map (normRowAux (derivedMapping rows n) 0))).length = _
    rw [removeNegativeIds_norm_eq hrect hn, List.length_map]

/-- C2: after `normalize_ids()` with the derived mapping, every entity cell
lies in `[0, id_range[last])` and inside the half-open sub-range owned by its
column, and the sub-ranges of distinct columns are disjoint. -/
theorem c2_normalized_id_ranges {rows : List (List Int)} {n : Nat} {idr : List Int}
    (hrect : ∀ r ∈ rows, r.length = n) (hn : 3 ≤ n)
    (hidr : idr = (normalizeIds rows (derivedMapping rows n) true).2) :
    (∀ r' ∈ (normalizeIds rows (derivedMapping rows n) true).1, ∀ k : Nat, k < n - 1 →
      (0 ≤ r'.getD k 0 ∧ r'.getD k 0 < idr.getLastD 0) ∧
      (if k = 0 then 0 else idr.getD (k - 1) 0) ≤ r'.getD k 0 ∧
      r'.getD k 0 < idr.getD k 0) ∧
    (∀ i j : Nat, i < j → j < n - 1 → ∀ v : Int,
      ¬(((if i = 0 then 0 else idr.getD (i - 1) 0) ≤ v ∧ v < idr.getD i 0) ∧
        (if j = 0 then 0 else idr.getD (j - 1) 0) ≤ v ∧ v < idr.getD j 0)) := by
  have hMlen : (derivedMapping rows n).length = n - 1 := derivedMapping_length rows n
  have hidr2 : idr = idrangeAux (derivedMapping rows n) 0 := hidr
  have hhi : ∀ k : Nat, k < n - 1 →
      idr.getD k 0 = entityOffset (derivedMapping rows n) (k + 1) := by
    intro k hk
    rw [hidr2, idrangeAux_getD _ 0 k (by omega), zero_add]
  have hlo : ∀ k : Nat, k < n - 1 →
      (if k = 0 then (0 : Int) else idr.getD (k - 1) 0)
        = entityOffset (derivedMapping rows n) k := by
    intro k hk
    cases k with
    | zero => simp [entityOffset_zero]
    | succ k =>
      rw [if_neg (Nat.succ_ne_zero k)]
      show idr.getD k 0 = _
      rw [hidr2, idrangeAux_getD _ 0 k (by omega), zero_add]
  constructor
  · intro r' hr' k hk
    rw [show (normalizeIds rows (derivedMapping rows n) true).1
        = removeNegativeIds (rows.map (normRowAux (derivedMapping rows n) 0)) from rfl,
      removeNegativeIds_norm_eq hrect hn] at hr'
    obtain ⟨r, hr, rfl⟩ := List.mem_map.mp hr'
    obtain ⟨j, hcell, hjlt⟩ := normalized_cell_spec hr (hrect r hr) hk
    have hoff0 := entityOffset_nonneg (derivedMapping rows n) k
    have hsucc : entityOffset (derivedMapping rows n) (k + 1)
        = entityOffset (derivedMapping rows n) k
          + (((derivedMapping rows n).getD k []).length : Int) :=
      entityOffset_succ_of_lt (by omega)
    have hlast : idr.getLastD 0
        = entityOffset (derivedMapping rows n) (n - 1) := by
      rw [hidr2, idrangeAux_getLast _ 0 ?_, zero_add, hMlen]
      intro hc
      rw [hc] at hMlen
      simp at hMlen
      omega
    have hmono : entityOffset (derivedMapping rows n) (k + 1)
        ≤ entityOffset (derivedMapping rows n) (n - 1) :=
      entityOffset_mono _ (by omega)
    rw [hcell, hlo k hk, hhi k hk, hlast]
    omega
  · intro i j hij hj v
    have h1 : idr.getD i 0 = entityOffset (derivedMapping rows n) (i + 1) :=
      hhi i (by omega)
    have h2 := hlo i (by omega)
    have h3 := hlo j (by omega)
    have h4 : entityOffset (derivedMapping rows n) (i + 1)
        ≤ entityOffset (derivedMapping rows n) j :=
      entityOffset_mono _ (by omega)
    rw [h1, h2, h3]
    omega

/-- C3: `normalize_ids()` with the derived mapping followed by
`denormalize_ids` with the same mapping and `remove_missing=False` restores
the original table, labels included. -/
theorem c3_normalize_denormalize_roundtrip {rows : List (List Int)} {n : Nat}
    (hrect : ∀ r ∈ rows, r.length = n) (hn : 3 ≤ n) :
    denormalizeIds (normalizeIds rows (derivedMapping rows n) true).1
      (derivedMapping rows n) false = rows := by
  have h1 : (normalizeIds rows (derivedMapping rows n) true).1
      = rows.map (normRowAux (derivedMapping rows n) 0) :=
    removeNegativeIds_norm_eq hrect hn
  rw [h1]
  show ((rows.map (normRowAux (derivedMapping rows n) 0)).map
      (denormRowAux (derivedMapping rows n) 0)) = rows
  rw [List.map_map]
  have hcong : ∀ r ∈ rows,
      (denormRowAux (derivedMapping rows n) 0 ∘ normRowAux (derivedMapping rows n) 0) r
        = id r := by
    intro r hr
    show denormRowAux (derivedMapping rows n) 0 (normRowAux (derivedMapping rows n) 0 r) = r
    apply denormRow_normRow
    intro k hkM hkr
    have hk : k < n - 1 := by
      rw [derivedMapping_length] at hkM
      omega
    have hMk : (derivedMapping rows n).getD k []
        = sortedUnique (rows.map fun q => q.getD k 0) := derivedMapping_getD hk
    constructor
    · rw [hMk, mem_sortedUnique]
      exact List.mem_map_of_mem _ hr
    · rw [hMk]
      exact monoLe_sortedUnique _
  rw [List.map_congr_left hcong, List.map_id]

/-- Witness for C2 on the concrete table `[(3,7,1),(5,9,0)]`, whose derived
normalization has `idrange = [2,4]`. -/
theorem c2_normalized_id_ranges_witness :
    (∀ r' ∈ (normalizeIds [[3,7,1],[5,9,0]]
        (derivedMapping [[3,7,1],[5,9,0]] 3) true).1, ∀ k : Nat, k < 3 - 1 →
      (0 ≤ r'.getD k 0 ∧ r'.getD k 0 < ([2,4] : List Int).getLastD 0) ∧
      (if k = 0 then 0 else ([2,4] : List Int).getD (k - 1) 0) ≤ r'.getD k 0 ∧
      r'.getD k 0 < ([2,4] : List Int).getD k 0) ∧
    (∀ i j : Nat, i < j → j < 3 - 1 → ∀ v : Int,
      ¬(((if i = 0 then 0 else ([2,4] : List Int).getD (i - 1) 0) ≤ v ∧
          v < ([2,4] : List Int).getD i 0) ∧
        (if j = 0 then 0 else ([2,4] : List Int).getD (j - 1) 0) ≤ v ∧
          v < ([2,4] : List Int).getD j 0)) :=
  @c2_normalized_id_ranges [[3,7,1],[5,9,0]] 3 [2,4] (by decide) (by decide) (by decide)

/-- Witness for C3 on the concrete table `[(3,7,1),(5,9,0)]`. -/
theorem c3_normalize_denormalize_roundtrip_witness :
    denormalizeIds (normalizeIds [[3,7,1],[5,9,0]]
        (derivedMapping [[3,7,1],[5,9,0]] 3) true).1
      (derivedMapping [[3,7,1],[5,9,0]] 3) false = [[3,7,1],[5,9,0]] :=
  @c3_normalize_denormalize_roundtrip [[3,7,1],[5,9,0]] 3 (by decide) (by decide)

/-- Witness for C10 on the concrete table `[(3,7,1),(5,9,0)]`. -/
theorem c10_derived_mapping_no_missing_witness :
    (∀ r ∈ ([[3,7,1],[5,9,0]] : List (List Int)), ∀ k : Nat, k < 3 - 1 →
      r.getD k 0 ∈ (derivedMapping [[3,7,1],[5,9,0]] 3).getD k []) ∧
    (∀ r ∈ ([[3,7,1],[5,9,0]] : List (List Int)), ∀ k : Nat, k < 3 - 1 →
      findNorm ((derivedMapping [[3,7,1],[5,9,0]] 3).getD k []) (r.getD k 0) ≠ -1) ∧
    (normalizeIds [[3,7,1],[5,9,0]]
        (derivedMapping [[3,7,1],[5,9,0]] 3) true).1.length
      = ([[3,7,1],[5,9,0]] : List (List Int)).length :=
  @c10_derived_mapping_no_missing [[3,7,1],[5,9,0]] 3 (by decide) (by decide)

/-! ### Adjacency matrix -/

/-- Membership in the keys written by the `create_adjacency_matrix` loop. -/
theorem mem_adjacencyEntries_aux :
    ∀ (rows : List (List Int)) (acc : List (Int × Int)) (p : Int × Int),
    (p ∈ rows.foldl
        (fun acc r => (r.getD 1 0, r.getD 0 0) :: (r.getD 0 0, r.getD 1 0) :: acc) acc) ↔
      p ∈ acc ∨ ∃ r ∈ rows,
        p = (r.getD 0 0, r.getD 1 0) ∨ p = (r.getD 1 0, r.getD 0 0) := by
  intro rows
  induction rows with
  | nil => simp
  | cons r rows ih =>
    intro acc p
    rw [List.foldl_cons, ih]
    constructor
    · rintro (hacc | ⟨q, hq, hpq⟩)
      · rcases List.mem_cons.mp hacc with h | hacc2
        · exact Or.inr ⟨r, List.mem_cons_self r rows, Or.inr h⟩
        · rcases List.mem_cons.mp hacc2 with h | hacc3
          · exact Or.inr ⟨r, List.mem_cons_self r rows, Or.inl h⟩
          · exact Or.inl hacc3
      · exact Or.inr ⟨q, List.mem_cons_of_mem _ hq, hpq⟩
    · rintro (hacc | ⟨q, hq, hpq⟩)
      · exact Or.inl (List.mem_cons_of_mem _ (List.mem_cons_of_mem _ hacc))
      · rcases List.mem_cons.mp hq with rfl | hq2
        · rcases hpq with h | h
          · exact Or.inl (by rw [h]; exact List.mem_cons_of_mem _ (List.mem_cons_self _ _))
          · exact Or.inl (by rw [h]; exact List.mem_cons_self _ _)
        · exact Or.inr ⟨q, hq2, hpq⟩

theorem mem_adjacencyEntries (rows : List (List Int)) (p : Int × Int) :
    p ∈ adjacencyEntries rows ↔ ∃ r ∈ rows,
      p = (r.getD 0 0, r.getD 1 0) ∨ p = (r.getD 1 0, r.getD 0 0) := by
  rw [adjacencyEntries, mem_adjacencyEntries_aux]
  simp

/-- C5 counterexample: on the one-row table `(0,0,0,1)` (user, item, context,
label), normalization yields `idrange = [1,2,3]`, and the matrix size is
`idrange[1] = 2`, not `idrange[last] = 3` as the claim states. -/
theorem c5_size_counterexample :
    (createAdjacencyMatrix
        (normalizeIds [[0,0,0,1]] (derivedMapping [[0,0,0,1]] 4) true).1
        (normalizeIds [[0,0,0,1]] (derivedMapping [[0,0,0,1]] 4) true).2).1 = 2 ∧
    (normalizeIds [[0,0,0,1]] (derivedMapping [[0,0,0,1]] 4) true).2.getLastD 0 = 3 ∧
    (2 : Int) ≠ 3 := by
  decide

/-- C5 amended: `create_adjacency_matrix` builds a square sparse matrix of
size `idrange[1]` (equal to `idrange[last]` only when there are exactly two
entity columns), symmetric, whose entries are `1` exactly at `(user, item)`
and `(item, user)` of some row and `0` elsewhere. -/
theorem c5_adjacency_matrix_spec (rows : List (List Int)) (idr : List Int) :
    (createAdjacencyMatrix rows idr).1 = idr.getD 1 0 ∧
    (∀ a b : Int, adjEntry rows a b = adjEntry rows b a) ∧
    (∀ a b : Int, adjEntry rows a b = 1 ↔
      ∃ r ∈ rows, (r.getD 0 0 = a ∧ r.getD 1 0 = b) ∨
        (r.getD 0 0 = b ∧ r.getD 1 0 = a)) ∧
    (∀ a b : Int, adjEntry rows a b = 1 ∨ adjEntry rows a b = 0) := by
  have hswap : ∀ a b : Int,
      ((a, b) ∈ adjacencyEntries rows ↔ (b, a) ∈ adjacencyEntries rows) := by
    intro a b
    rw [mem_adjacencyEntries, mem_adjacencyEntries]
    constructor <;>
      (rintro ⟨r, hr, h | h⟩ <;>
        exact ⟨r, hr, by simp only [Prod.mk.injEq] at h ⊢; tauto⟩)
  refine ⟨rfl, fun a b => ?_, fun a b => ?_, fun a b => ?_⟩
  · simp only [adjEntry]
    rw [if_congr (hswap a b) rfl rfl]
  · simp only [adjEntry]
    by_cases h : (a, b) ∈ adjacencyEntries rows
    · rw [if_pos h]
      rw [mem_adjacencyEntries] at h
      simp only [true_iff]
      obtain ⟨r, hr, hp | hp⟩ := h <;>
        exact ⟨r, hr, by simp only [Prod.mk.injEq] at hp; tauto⟩
    · rw [if_neg h]
      rw [mem_adjacencyEntries] at h
      refine iff_of_false (by decide) ?_
      rintro ⟨r, hr, ⟨h1, h2⟩ | ⟨h1, h2⟩⟩
      · exact h ⟨r, hr, Or.inl (by rw [h1, h2])⟩
      · exact h ⟨r, hr, Or.inr (by rw [h1, h2])⟩
  · simp only [adjEntry]
    by_cases h : (a, b) ∈ adjacencyEntries rows
    · exact Or.inl (if_pos h)
    · exact Or.inr (if_neg h)

/-! ### Low-degree filtering -/

theorem zip_map_filterMap_eq_filter {α : Type} (l : List α) (p : α → Bool) :
    ((l.zip (l.map p)).filterMap fun q => if q.2 then some q.1 else none)
      = l.filter p := by
  induction l with
  | nil => rfl
  | cons a l ih =>
    simp only [List.map_cons, List.zip_cons_cons, List.filterMap_cons, List.filter_cons]
    by_cases h : p a
    · simp [h, ih]
    · simp only [Bool.not_eq_true] at h
      simp [h, ih]

theorem length_filter_not_map {α : Type} (l : List α) (p : α → Bool) :
    (((l.map p).filter fun b => !b)).length = l.length - (l.filter p).length := by
  induction l with
  | nil => rfl
  | cons a l ih =>
    have hle : (l.filter p).length ≤ l.length := List.length_filter_le _ _
    simp only [List.map_cons]
    by_cases h : p a
    · rw [List.filter_cons_of_neg (by simp [h]), List.filter_cons_of_pos h, ih]
      simp only [List.length_cons]
      omega
    · simp only [Bool.not_eq_true] at h
      rw [List.filter_cons_of_pos (by simp [h]), List.filter_cons_of_neg (by simp [h])]
      simp only [List.length_cons, ih]
      omega

/-- The `counts[ids]` lookup of `__remove_low` equals the matrix column sum
at the (in-range) id. -/
theorem counts_getD_eq {m : Int → Int → Int} {size : Nat} {v : Int}
    (h0 : 0 ≤ v) (h1 : v.toNat < size) :
    (((List.range size).map fun j => matrixColSum m size (Int.ofNat j)).getD v.toNat 0)
      = matrixColSum m size v := by
  have hlen : ((List.range size).map fun j => matrixColSum m size (Int.ofNat j)).length
      = size := by rw [List.length_map, List.length_range]
  have hv : v.toNat
      < ((List.range size).map fun j => matrixColSum m size (Int.ofNat j)).length := by
    omega
  have hcast : Int.ofNat v.toNat = v := by
    rw [Int.ofNat_eq_coe, Int.toNat_of_nonneg h0]
  rw [List.getD_eq_getElem _ 0 hv, List.getElem_map, List.getElem_range, hcast]

/-- Characterization of `__remove_low`: keep exactly the rows whose entity
degree (column sum at the row's id) strictly exceeds `lim`; the returned count
is the number of dropped rows. -/
theorem removeLowAux_spec {m : Int → Int → Int} {size : Nat} {lim : Int}
    {idx : Nat} {rows : List (List Int)}
    (h : ∀ r ∈ rows, 0 ≤ r.getD idx 0 ∧ (r.getD idx 0).toNat < size) :
    removeLowAux m size lim idx rows
      = (rows.filter fun r => decide (lim < matrixColSum m size (r.getD idx 0)),
         rows.length
           - (rows.filter fun r =>
               decide (lim < matrixColSum m size (r.getD idx 0))).length) := by
  have hcong : ∀ r ∈ rows,
      (decide (lim < (((List.range size).map fun j =>
          matrixColSum m size (Int.ofNat j)).getD (r.getD idx 0).toNat 0)))
        = decide (lim < matrixColSum m size (r.getD idx 0)) := by
    intro r hr
    rw [counts_getD_eq (h r hr).1 (h r hr).2]
  simp only [removeLowAux]
  rw [zip_map_filterMap_eq_filter, length_filter_not_map,
    List.filter_congr hcong]



/-- C9: `remove_low_users` (resp. `remove_low_items`) keeps exactly the rows
whose user (resp. item) degree — the matrix column sum at that id — strictly
exceeds `lim`, and returns the number of dropped rows; with `lim = 0` a
degree-0 user loses all its rows and a degree-1 user keeps them. -/
theorem c9_remove_low_degree {m : Int → Int → Int} {size : Nat} {lim : Int}
    {rows : List (List Int)}
    (hu : ∀ r ∈ rows, 0 ≤ r.getD 0 0 ∧ (r.getD 0 0).toNat < size)
    (hv : ∀ r ∈ rows, 0 ≤ r.getD 1 0 ∧ (r.getD 1 0).toNat < size) :
    (removeLowUsers m size lim rows
      = (rows.filter fun r => decide (lim < matrixColSum m size (r.getD 0 0)),
         rows.length - (rows.filter fun r =>
           decide (lim < matrixColSum m size (r.getD 0 0))).length)) ∧
    (removeLowItems m size lim rows
      = (rows.filter fun r => decide (lim < matrixColSum m size (r.getD 1 0)),
         rows.length - (rows.filter fun r =>
           decide (lim < matrixColSum m size (r.getD 1 0))).length)) ∧
    (∀ r ∈ rows, matrixColSum m size (r.getD 0 0) = 0 →
      r ∉ (removeLowUsers m size 0 rows).1) ∧
    (∀ r ∈ rows, matrixColSum m size (r.getD 0 0) = 1 →
      r ∈ (removeLowUsers m size 0 rows).1) := by
  refine ⟨@removeLowAux_spec m size lim 0 rows hu,
    @removeLowAux_spec m size lim 1 rows hv, ?_, ?_⟩
  · intro r hr hcol hmem
    have h0 := @removeLowAux_spec m size 0 0 rows hu
    rw [show removeLowUsers m size 0 rows = removeLowAux m size 0 0 rows from rfl,
      h0] at hmem
    have hdec := (List.mem_filter.mp hmem).2
    rw [hcol] at hdec
    simp at hdec
  · intro r hr hcol
    have h0 := @removeLowAux_spec m size 0 0 rows hu
    rw [show removeLowUsers m size 0 rows = removeLowAux m size 0 0 rows from rfl, h0]
    exact List.mem_filter.mpr ⟨hr, by rw [hcol]; decide⟩

/-- Witness for C9: a 3x3 matrix with one edge (1,2); the user `0` has
degree 0 and loses its row, user `1` has degree 1 and keeps it. -/
theorem c9_remove_low_degree_witness :
    (removeLowUsers degMatrix 3 0 [[0,2,1],[1,2,1]]
      = (([[0,2,1],[1,2,1]] : List (List Int)).filter (fun r =>
          decide ((0 : Int) < matrixColSum degMatrix 3 (r.getD 0 0))),
         ([[0,2,1],[1,2,1]] : List (List Int)).length
           - (([[0,2,1],[1,2,1]] : List (List Int)).filter (fun r =>
             decide ((0 : Int) < matrixColSum degMatrix 3 (r.getD 0 0)))).length)) ∧
    (removeLowItems degMatrix 3 0 [[0,2,1],[1,2,1]]
      = (([[0,2,1],[1,2,1]] : List (List Int)).filter (fun r =>
          decide ((0 : Int) < matrixColSum degMatrix 3 (r.getD 1 0))),
         ([[0,2,1],[1,2,1]] : List (List Int)).length
           - (([[0,2,1],[1,2,1]] : List (List Int)).filter (fun r =>
             decide ((0 : Int) < matrixColSum degMatrix 3 (r.getD 1 0)))).length)) ∧
    (∀ r ∈ ([[0,2,1],[1,2,1]] : List (List Int)),
      matrixColSum degMatrix 3 (r.getD 0 0) = 0 →
      r ∉ (removeLowUsers degMatrix 3 0 [[0,2,1],[1,2,1]]).1) ∧
    (∀ r ∈ ([[0,2,1],[1,2,1]] : List (List Int)),
      matrixColSum degMatrix 3 (r.getD 0 0) = 1 →
      r ∈ (removeLowUsers degMatrix 3 0 [[0,2,1],[1,2,1]]).1) :=
  @c9_remove_low_degree degMatrix 3 0 [[0,2,1],[1,2,1]] (by decide) (by decide)

/-! ### Negative sampling -/

/-- Any value the retry loop around `np.random.randint(minv, maxv)` returns
is inside `[lo, hi)` and differs from the forbidden value. -/
theorem drawNe_spec : ∀ (fuel : Nat) (lo hi bad : Int) (s s' : List Nat) (v : Int),
    drawNe lo hi bad fuel s = some (v, s') → lo ≤ v ∧ v < hi ∧ v ≠ bad := by
  intro fuel
  induction fuel with
  | zero => intro lo hi bad s s' v h; simp [drawNe] at h
  | succ fuel ih =>
    intro lo hi bad s s' v h
    rw [drawNe] at h
    by_cases hlt : lo < hi
    · rw [if_pos hlt] at h
      by_cases hb : lo + (Int.ofNat (s.headD 0)) % (hi - lo) = bad
      · rw [if_pos hb] at h
        exact ih lo hi bad s.tail s' v h
      · rw [if_neg hb] at h
        have h2 := Option.some.inj h
        have hv : v = lo + (Int.ofNat (s.headD 0)) % (hi - lo) :=
          (congrArg Prod.fst h2).symm
        have hmod1 : 0 ≤ (Int.ofNat (s.headD 0)) % (hi - lo) :=
          Int.emod_nonneg _ (by omega)
        have hmod2 : (Int.ofNat (s.headD 0)) % (hi - lo) < hi - lo :=
          Int.emod_lt_of_pos _ (by omega)
        refine ⟨by omega, by omega, ?_⟩
        rw [hv]
        exact hb
    · rw [if_neg hlt] at h
      exact absurd h (by simp)

/-- The column loop of `get_random_negative_row` produces one value per
consecutive pair of bounds, each inside its own interval and different from
the corresponding source cell. -/
theorem negCols_spec : ∀ (bounds : List Int) (fuel : Nat) (rvs : List Int)
    (s s' : List Nat) (vs : List Int),
    negCols fuel bounds rvs s = some (vs, s') →
    vs.length = bounds.length - 1 ∧
    ∀ k : Nat, k < vs.length →
      bounds.getD k 0 ≤ vs.getD k 0 ∧ vs.getD k 0 < bounds.getD (k + 1) 0 ∧
      vs.getD k 0 ≠ rvs.getD k 0 := by
  intro bounds
  induction bounds with
  | nil =>
    intro fuel rvs s s' vs h
    simp only [negCols] at h
    have hv : vs = [] := (congrArg Prod.fst (Option.some.inj h)).symm
    subst hv
    exact ⟨rfl, fun k hk => by simp at hk⟩
  | cons lo rest ih =>
    intro fuel rvs s s' vs h
    cases rest with
    | nil =>
      simp only [negCols] at h
      have hv : vs = [] := (congrArg Prod.fst (Option.some.inj h)).symm
      subst hv
      exact ⟨rfl, fun k hk => by simp at hk⟩
    | cons hi t =>
      cases rvs with
      | nil => simp [negCols] at h
      | cons rv rvs =>
        simp only [negCols] at h
        split at h
        · exact absurd h (by simp)
        · rename_i v s1 hd
          split at h
          · exact absurd h (by simp)
          · rename_i vs0 s2 hrec
            have hv : vs = v :: vs0 := (congrArg Prod.fst (Option.some.inj h)).symm
            subst hv
            obtain ⟨hlen0, hprops⟩ := ih fuel rvs s1 s2 vs0 hrec
            obtain ⟨hd1, hd2, hd3⟩ := drawNe_spec fuel lo hi rv s s1 v hd
            refine ⟨by simp [hlen0], fun k hk => ?_⟩
            cases k with
            | zero => exact ⟨hd1, hd2, hd3⟩
            | succ k =>
              have hk0 : k < vs0.length := by simpa using hk
              obtain ⟨p1, p2, p3⟩ := hprops k hk0
              exact ⟨p1, p2, p3⟩

/-- `get_random_negative_row`: the returned row has the source's width, keeps
the user cell, zeroes the label cell, and redraws every other entity column
inside its own sub-range to a value different from the source's. -/
theorem getRandomNegativeRow_spec {fuel : Nat} {idr row : List Int}
    {s s' : List Nat} {nrow : List Int}
    (hlen : row.length = idr.length + 1) (hne : idr ≠ [])
    (h : getRandomNegativeRow fuel idr row s = some (nrow, s')) :
    nrow.length = idr.length + 1 ∧
    nrow.getD 0 0 = row.getD 0 0 ∧
    nrow.getD idr.length 0 = 0 ∧
    ∀ k : Nat, 1 ≤ k → k < idr.length →
      idr.getD (k - 1) 0 ≤ nrow.getD k 0 ∧ nrow.getD k 0 < idr.getD k 0 ∧
      nrow.getD k 0 ≠ row.getD k 0 := by
  cases row with
  | nil =>
    simp only [List.length_nil] at hlen
    omega
  | cons r0 rest =>
    simp only [getRandomNegativeRow] at h
    rw [if_pos (by simp only [List.length_cons] at hlen ⊢; omega)] at h
    split at h
    · exact absurd rfl hne
    · rename_i b0 bs
      split at h
      · exact absurd h (by simp)
      · rename_i vs s1 hc
        have hn : nrow = r0 :: vs ++ [0] :=
          (congrArg Prod.fst (Option.some.inj h)).symm
        subst hn
        obtain ⟨hvslen, hprops⟩ := negCols_spec (b0 :: bs) fuel rest s s1 vs hc
        have hvslen' : vs.length = bs.length := by
          simpa using hvslen
        refine ⟨by simp only [List.length_cons, List.length_append,
            List.length_nil]; omega, rfl, ?_, ?_⟩
        · simp only [List.length_cons]
          rw [List.getD_append_right _ _ _ _ (by simp only [List.length_cons]; omega)]
          rw [show bs.length + 1 - (r0 :: vs).length = 0 from by
            simp only [List.length_cons]; omega]
          rfl
        · intro k hk1 hk2
          simp only [List.length_cons] at hk2
          have hk3 : k - 1 < vs.length := by omega
          have hget : ((r0 :: vs ++ [0]) : List Int).getD k 0 = vs.getD (k - 1) 0 := by
            rw [List.getD_append _ _ _ _ (by simp only [List.length_cons]; omega)]
            cases k with
            | zero => omega
            | succ k => simp
          have hgetr : ((r0 :: rest) : List Int).getD k 0 = rest.getD (k - 1) 0 := by
            cases k with
            | zero => omega
            | succ k => simp
          obtain ⟨p1, p2, p3⟩ := hprops (k - 1) hk3
          rw [hget, hgetr]
          have hk4 : k - 1 + 1 = k := by omega
          rw [hk4] at p2
          exact ⟨p1, p2, p3⟩

/-- Generic cell-membership: a `getD` at an in-range index is a member. -/
theorem getD_mem {α : Type} {l : List α} {i : Nat} (h : i < l.length) (d : α) :
    l.getD i d ∈ l := by
  rw [List.getD_eq_getElem l d h]
  exact List.get_mem l i h

/-- Any row the `while ... __row_comb_in_container` retry loop returns comes
from a successful `get_random_negative_row` call and has no pairwise entity
combination in the container. -/
theorem negRowChecked_spec : ∀ (fo : Nat) (container : Int × Int → Bool)
    (idr row : List Int) (fi : Nat) (s s' : List Nat) (nrow : List Int),
    negRowChecked container idr row fi fo s = some (nrow, s') →
    (∃ t t' : List Nat, getRandomNegativeRow fi idr row t = some (nrow, t')) ∧
    rowCombIn container nrow = false := by
  intro fo
  induction fo with
  | zero => intro c idr row fi s s' nrow h; simp [negRowChecked] at h
  | succ fo ih =>
    intro c idr row fi s s' nrow h
    simp only [negRowChecked] at h
    split at h
    · exact absurd h (by simp)
    · rename_i nr s1 hd
      split at h
      · exact ih c idr row fi s1 s' nrow h
      · rename_i hcond
        have hnr : nrow = nr := (congrArg Prod.fst (Option.some.inj h)).symm
        subst hnr
        exact ⟨⟨s, s1, hd⟩, Bool.eq_false_iff.mpr hcond⟩

/-- `get_random_negative_rows(container, row, num)` returns exactly `num`
rows, each one produced by the checked retry loop. -/
theorem negRowsN_spec : ∀ (num : Nat) (container : Int × Int → Bool)
    (idr row : List Int) (fi fo : Nat) (s s' : List Nat) (nrows : List (List Int)),
    negRowsN container idr row fi fo num s = some (nrows, s') →
    nrows.length = num ∧
    ∀ nrow ∈ nrows, ∃ t t' : List Nat,
      negRowChecked container idr row fi fo t = some (nrow, t') := by
  intro num
  induction num with
  | zero =>
    intro c idr row fi fo s s' nrows h
    simp only [negRowsN] at h
    have hv : nrows = [] := (congrArg Prod.fst (Option.some.inj h)).symm
    subst hv
    exact ⟨rfl, fun nrow hm => by simp at hm⟩
  | succ n ih =>
    intro c idr row fi fo s s' nrows h
    simp only [negRowsN] at h
    split at h
    · exact absurd h (by simp)
    · rename_i nr s1 hd
      split at h
      · exact absurd h (by simp)
      · rename_i rest s2 hrec
        have hv : nrows = nr :: rest := (congrArg Prod.fst (Option.some.inj h)).symm
        subst hv
        obtain ⟨hlen0, hmem0⟩ := ih c idr row fi fo s1 s2 rest hrec
        refine ⟨by simp [hlen0], fun nrow hm => ?_⟩
        rcases List.mem_cons.mp hm with rfl | hm2
        · exact ⟨s, s1, hd⟩
        · exact hmem0 nrow hm2

/-- Layout of `add_negative_sampling`'s row loop: block `k` starts with the
original row `k` and is followed by its `num` checked negative rows. -/
theorem addNegAux_spec : ∀ (rows : List (List Int)) (container : Int × Int → Bool)
    (idr : List Int) (fi fo num : Nat) (s s' : List Nat) (res : List (List Int)),
    addNegAux container idr fi fo num rows s = some (res, s') →
    res.length = (num + 1) * rows.length ∧
    ∀ k : Nat, k < rows.length →
      res.getD ((num + 1) * k) [] = rows.getD k [] ∧
      ∀ j : Nat, 1 ≤ j → j ≤ num →
        ∃ t t' : List Nat, negRowChecked container idr (rows.getD k []) fi fo t
          = some (res.getD ((num + 1) * k + j) [], t') := by
  intro rows
  induction rows with
  | nil =>
    intro c idr fi fo num s s' res h
    simp only [addNegAux] at h
    have hv : res = [] := (congrArg Prod.fst (Option.some.inj h)).symm
    subst hv
    exact ⟨by simp, fun k hk => by simp at hk⟩
  | cons r rs ih =>
    intro c idr fi fo num s s' res h
    simp only [addNegAux] at h
    split at h
    · exact absurd h (by simp)
    · rename_i negs s1 hnegs
      split at h
      · exact absurd h (by simp)
      · rename_i rest s2 hrest
        have hv : res = r :: (negs ++ rest) := (congrArg Prod.fst (Option.some.inj h)).symm
        subst hv
        obtain ⟨hnlen, hnmem⟩ := negRowsN_spec num c idr r fi fo s s1 negs hnegs
        obtain ⟨hrlen, hrk⟩ := ih c idr fi fo num s1 s2 rest hrest
        have hmul : (num + 1) * (rs.length + 1) = (num + 1) * rs.length + (num + 1) :=
          Nat.mul_succ _ _
        refine ⟨?_, fun k hk => ?_⟩
        · simp only [List.length_cons, List.length_append, hnlen, hrlen]
          omega
        · cases k with
          | zero =>
            refine ⟨by simp, fun j hj1 hj2 => ?_⟩
            have hidx : (num + 1) * 0 + j = (j - 1) + 1 := by omega
            rw [hidx, List.getD_cons_succ,
              List.getD_append _ _ _ _ (by omega)]
            obtain ⟨t, t', hchk⟩ := hnmem (negs.getD (j - 1) []) (getD_mem (by omega) [])
            exact ⟨t, t', by
              rw [show ((r :: rs : List (List Int))).getD 0 [] = r from rfl]
              exact hchk⟩
          | succ k =>
            have hk2 : k < rs.length := by simpa using hk
            obtain ⟨ho, hjs⟩ := hrk k hk2
            have hidx : (num + 1) * (k + 1) = ((num + 1) * k + num) + 1 := by ring
            refine ⟨?_, fun j hj1 hj2 => ?_⟩
            · have hle : negs.length ≤ (num + 1) * k + num := by omega
              have hsub : (num + 1) * k + num - negs.length = (num + 1) * k := by omega
              rw [hidx, List.getD_cons_succ,
                List.getD_append_right _ _ _ _ hle, hsub]
              rw [List.getD_cons_succ]
              exact ho
            · have hidx2 : (num + 1) * (k + 1) + j = ((num + 1) * k + num + j) + 1 := by
                ring
              have hle : negs.length ≤ (num + 1) * k + num + j := by omega
              have hsub : (num + 1) * k + num + j - negs.length = (num + 1) * k + j := by
                omega
              rw [hidx2]
              rw [List.getD_cons_succ]
              rw [List.getD_cons_succ]
              rw [List.getD_append_right _ _ _ _ hle]
              rw [hsub]
              exact hjs j hj1 hj2

/-- Ordered pairs of in-range cells are among `itertools.combinations(l, 2)`. -/
theorem mem_combPairs_getD : ∀ (l : List Int) (i j : Nat), i < j → j < l.length →
    (l.getD i 0, l.getD j 0) ∈ combPairs l := by
  intro l
  induction l with
  | nil => intro i j h1 h2; simp at h2
  | cons x xs ih =>
    intro i j h1 h2
    cases i with
    | zero =>
      cases j with
      | zero => omega
      | succ j =>
        simp only [combPairs, List.getD_cons_zero, List.getD_cons_succ]
        exact List.mem_append_left _
          (List.mem_map_of_mem _ (getD_mem (by simpa using h2) 0))
    | succ i =>
      cases j with
      | zero => omega
      | succ j =>
        simp only [combPairs, List.getD_cons_succ]
        exact List.mem_append_right _ (ih i j (by omega) (by simpa using h2))

/-- `dropLast` keeps the in-range cells. -/
theorem getD_dropLast {l : List Int} {k : Nat} (hk : k < l.length - 1) :
    l.dropLast.getD k 0 = l.getD k 0 := by
  have h1 : k < l.dropLast.length := by rw [List.length_dropLast]; omega
  have h2 : k < l.length := by omega
  rw [List.getD_eq_getElem _ 0 h1, List.getD_eq_getElem _ 0 h2]
  exact List.getElem_dropLast l k h1

/-- C7 counterexample: on the 4-column table `[(0,1,3,1)]` (user, item,
context, label) with `idrange = [1,3,5]`, the synthesized negative row is
`(0,2,4,0)`: its context column (index 2) is `4`, not the source's `3` — the
context entity column is redrawn, not kept. -/
theorem c7_context_column_redrawn_counterexample :
    addNegativeSampling (fun _ => false) [1,3,5] 3 3 1 [[0,1,3,1]] [1,1]
      = some ([[0,1,3,1],[0,2,4,0]], []) ∧
    (([[0,1,3,1],[0,2,4,0]] : List (List Int)).getD 1 []).getD 2 0
      ≠ (([[0,1,3,1],[0,2,4,0]] : List (List Int)).getD 0 []).getD 2 0 := by
  decide

/-- C7 amended: a synthesized negative row keeps only the user column (and
zeroes the label); every other entity column — item and entity-valued context
columns alike — is redrawn inside its own id sub-range to a value different
from the source row's. -/
theorem c7_negative_row_keeps_only_user {fuel : Nat} {idr row nrow : List Int}
    {s s' : List Nat}
    (hlen : row.length = idr.length + 1) (hne : idr ≠ [])
    (h : getRandomNegativeRow fuel idr row s = some (nrow, s')) :
    nrow.length = idr.length + 1 ∧
    nrow.getD 0 0 = row.getD 0 0 ∧
    nrow.getD idr.length 0 = 0 ∧
    ∀ k : Nat, 1 ≤ k → k < idr.length →
      idr.getD (k - 1) 0 ≤ nrow.getD k 0 ∧ nrow.getD k 0 < idr.getD k 0 ∧
      nrow.getD k 0 ≠ row.getD k 0 :=
  getRandomNegativeRow_spec hlen hne h

/-- Witness for C7 (amended) at the concrete draw `(0,1,3,1) → (0,2,4,0)`. -/
theorem c7_negative_row_keeps_only_user_witness :
    ([0,2,4,0] : List Int).length = ([1,3,5] : List Int).length + 1 ∧
    ([0,2,4,0] : List Int).getD 0 0 = ([0,1,3,1] : List Int).getD 0 0 ∧
    ([0,2,4,0] : List Int).getD ([1,3,5] : List Int).length 0 = 0 ∧
    (∀ k : Nat, 1 ≤ k → k < ([1,3,5] : List Int).length →
      ([1,3,5] : List Int).getD (k - 1) 0 ≤ ([0,2,4,0] : List Int).getD k 0 ∧
      ([0,2,4,0] : List Int).getD k 0 < ([1,3,5] : List Int).getD k 0 ∧
      ([0,2,4,0] : List Int).getD k 0 ≠ ([0,1,3,1] : List Int).getD k 0) :=
  @c7_negative_row_keeps_only_user 3 [1,3,5] [0,1,3,1] [0,2,4,0] [1,1] []
    (by decide) (by decide) (by decide)

/-- C1: whenever `add_negative_sampling(container, num=2)` terminates on a
normalized table of `N` rows, the result has `3 N` rows, the original rows
sit unchanged at positions `0, 3, 6, ...`, and every synthesized row has
label `0`, an item different from its source row's item, and none of its
pairwise entity combinations — in particular its user/item pair — present in
the container. -/
theorem c1_add_negative_sampling {container : Int × Int → Bool} {idr : List Int}
    {fi fo : Nat} {rows res : List (List Int)} {s s' : List Nat} {n : Nat}
    (hrect : ∀ r ∈ rows, r.length = n) (hn : n = idr.length + 1)
    (hidr2 : 2 ≤ idr.length)
    (h : addNegativeSampling container idr fi fo 2 rows s = some (res, s')) :
    res.length = 3 * rows.length ∧
    (∀ k : Nat, k < rows.length → res.getD (3 * k) [] = rows.getD k []) ∧
    (∀ k j : Nat, k < rows.length → 1 ≤ j → j ≤ 2 →
      (res.getD (3 * k + j) []).length = idr.length + 1 ∧
      (res.getD (3 * k + j) []).getD idr.length 0 = 0 ∧
      (res.getD (3 * k + j) []).getD 0 0 = (rows.getD k []).getD 0 0 ∧
      (res.getD (3 * k + j) []).getD 1 0 ≠ (rows.getD k []).getD 1 0 ∧
      (∀ p ∈ combPairs (res.getD (3 * k + j) []).dropLast, container p = false) ∧
      container ((res.getD (3 * k + j) []).getD 0 0,
        (res.getD (3 * k + j) []).getD 1 0) = false) := by
  have h' : addNegAux container idr fi fo 2 rows s = some (res, s') := by
    rw [addNegativeSampling, if_neg (by decide : ¬(2 = 0))] at h
    exact h
  obtain ⟨hL, hK⟩ := addNegAux_spec rows container idr fi fo 2 s s' res h'
  refine ⟨by rw [hL], fun k hk => (hK k hk).1, fun k j hk hj1 hj2 => ?_⟩
  obtain ⟨t, t', hchk⟩ := (hK k hk).2 j hj1 hj2
  obtain ⟨⟨u, u', hrow⟩, hcomb⟩ :=
    negRowChecked_spec fo container idr (rows.getD k []) fi t t'
      (res.getD ((2 + 1) * k + j) []) hchk
  have hrl : (rows.getD k []).length = idr.length + 1 := by
    rw [hrect _ (getD_mem hk []), hn]
  have hne : idr ≠ [] := by
    intro hc
    rw [hc] at hidr2
    simp at hidr2
  obtain ⟨q1, q2, q3, q4⟩ := getRandomNegativeRow_spec hrl hne hrow
  have hpairs : ∀ p ∈ combPairs (res.getD (3 * k + j) []).dropLast,
      container p = false := by
    intro p hp
    have := List.any_eq_false.mp hcomb p hp
    exact Bool.eq_false_iff.mpr this
  refine ⟨q1, q3, q2, (q4 1 (by omega) (by omega)).2.2, hpairs, ?_⟩
  apply hpairs
  have hdll : (res.getD (3 * k + j) []).dropLast.length = idr.length := by
    rw [List.length_dropLast, q1]
    omega
  have hm := mem_combPairs_getD (res.getD (3 * k + j) []).dropLast 0 1
    (by omega) (by omega)
  rw [getD_dropLast (by rw [q1]; simp; omega), getD_dropLast (by rw [q1]; simp; omega)] at hm
  exact hm

/-- Witness for C1: two rows, `idrange = [2,4]`, an empty container and the
draw stream `[1,1,1,1]`. -/
theorem c1_add_negative_sampling_witness :
    ([[0,2,1],[0,3,0],[0,3,0],[1,3,1],[1,2,0],[1,2,0]] : List (List Int)).length
      = 3 * ([[0,2,1],[1,3,1]] : List (List Int)).length ∧
    (∀ k : Nat, k < ([[0,2,1],[1,3,1]] : List (List Int)).length →
      ([[0,2,1],[0,3,0],[0,3,0],[1,3,1],[1,2,0],[1,2,0]] : List (List Int)).getD (3 * k) []
        = ([[0,2,1],[1,3,1]] : List (List Int)).getD k []) ∧
    (∀ k j : Nat, k < ([[0,2,1],[1,3,1]] : List (List Int)).length → 1 ≤ j → j ≤ 2 →
      ((([[0,2,1],[0,3,0],[0,3,0],[1,3,1],[1,2,0],[1,2,0]] : List (List Int)).getD
          (3 * k + j) []).length = ([2,4] : List Int).length + 1) ∧
      ((([[0,2,1],[0,3,0],[0,3,0],[1,3,1],[1,2,0],[1,2,0]] : List (List Int)).getD
          (3 * k + j) []).getD ([2,4] : List Int).length 0 = 0) ∧
      ((([[0,2,1],[0,3,0],[0,3,0],[1,3,1],[1,2,0],[1,2,0]] : List (List Int)).getD
          (3 * k + j) []).getD 0 0
        = (([[0,2,1],[1,3,1]] : List (List Int)).getD k []).getD 0 0) ∧
      ((([[0,2,1],[0,3,0],[0,3,0],[1,3,1],[1,2,0],[1,2,0]] : List (List Int)).getD
          (3 * k + j) []).getD 1 0
        ≠ (([[0,2,1],[1,3,1]] : List (List Int)).getD k []).getD 1 0) ∧
      (∀ p ∈ combPairs (([[0,2,1],[0,3,0],[0,3,0],[1,3,1],[1,2,0],[1,2,0]] :
          List (List Int)).getD (3 * k + j) []).dropLast,
        (fun _ => false : Int × Int → Bool) p = false) ∧
      ((fun _ => false : Int × Int → Bool)
        ((([[0,2,1],[0,3,0],[0,3,0],[1,3,1],[1,2,0],[1,2,0]] : List (List Int)).getD
            (3 * k + j) []).getD 0 0,
         (([[0,2,1],[0,3,0],[0,3,0],[1,3,1],[1,2,0],[1,2,0]] : List (List Int)).getD
            (3 * k + j) []).getD 1 0) = false)) :=
  @c1_add_negative_sampling (fun _ => false) [2,4] 5 5
    [[0,2,1],[1,3,1]] [[0,2,1],[0,3,0],[0,3,0],[1,3,1],[1,2,0],[1,2,0]]
    [1,1,1,1] [] 3 (by decide) (by decide) (by decide) (by decide)


/-! ### Test-set extraction -/

theorem lookupD_cons_eq {v u : Int} {l : List Nat} {t : List (Int × List Nat)}
    (h : v = u) : lookupD ((v, l) :: t) u = l := by
  simp [lookupD, h]

theorem lookupD_cons_ne {v u : Int} {l : List Nat} {t : List (Int × List Nat)}
    (h : v ≠ u) : lookupD ((v, l) :: t) u = lookupD t u := by
  simp [lookupD, h]

/-- Appending an index under key `u` extends exactly `u`'s entry. -/
theorem lookupD_dictAppend_self : ∀ (d : List (Int × List Nat)) (u : Int) (i : Nat),
    lookupD (dictAppend d u i) u = lookupD d u ++ [i] := by
  intro d
  induction d with
  | nil => intro u i; simp [dictAppend, lookupD]
  | cons q t ih =>
    obtain ⟨v, l⟩ := q
    intro u i
    by_cases hvu : v = u
    · simp only [dictAppend, if_pos hvu]
      rw [lookupD_cons_eq hvu, lookupD_cons_eq hvu]
    · simp only [dictAppend, if_neg hvu]
      rw [lookupD_cons_ne hvu, lookupD_cons_ne hvu, ih]

/-- Appending an index under key `u` leaves other entries untouched. -/
theorem lookupD_dictAppend_ne : ∀ (d : List (Int × List Nat)) (u w : Int) (i : Nat),
    w ≠ u → lookupD (dictAppend d u i) w = lookupD d w := by
  intro d
  induction d with
  | nil =>
    intro u w i hwu
    simp only [dictAppend, lookupD]
    rw [if_neg (fun hc => hwu hc.symm)]
  | cons q t ih =>
    obtain ⟨v, l⟩ := q
    intro u w i hwu
    by_cases hvu : v = u
    · simp only [dictAppend, if_pos hvu]
      have hvw : v ≠ w := fun hc => hwu (hc ▸ hvu)
      rw [lookupD_cons_ne hvw, lookupD_cons_ne hvw]
    · simp only [dictAppend, if_neg hvu]
      by_cases hvw : v = w
      · rw [lookupD_cons_eq hvw, lookupD_cons_eq hvw]
      · rw [lookupD_cons_ne hvw, lookupD_cons_ne hvw, ih u w i hwu]

/-- Running the `rowsbyuser` loop over an enumerated suffix appends, to each
user's entry, exactly the indices of that user's positive rows. -/
theorem lookupD_buildFold : ∀ (rows : List (List Int)) (k : Nat)
    (d : List (Int × List Nat)) (u : Int),
    lookupD ((List.enumFrom k rows).foldl
      (fun d p => if 0 < p.2.getLastD 0 then dictAppend d (p.2.getD 0 0) p.1 else d) d) u
      = lookupD d u ++ ((List.enumFrom k rows).filter fun p =>
          decide (p.2.getD 0 0 = u) && decide (0 < p.2.getLastD 0)).map Prod.fst := by
  intro rows
  induction rows with
  | nil => intro k d u; simp
  | cons r rs ih =>
    intro k d u
    rw [List.enumFrom_cons, List.foldl_cons, List.filter_cons]
    by_cases hlab : 0 < r.getLastD 0
    · by_cases huser : r.getD 0 0 = u
      · have hcond : (decide ((k, r).2.getD 0 0 = u)
            && decide (0 < (k, r).2.getLastD 0)) = true := by
          simp only [Bool.and_eq_true, decide_eq_true_eq]
          exact ⟨huser, hlab⟩
        rw [if_pos hcond, List.map_cons]
        simp only [if_pos hlab]
        rw [ih (k + 1) (dictAppend d (r.getD 0 0) k) u, huser,
          lookupD_dictAppend_self d u k]
        simp
      · have hcond : ¬((decide ((k, r).2.getD 0 0 = u)
            && decide (0 < (k, r).2.getLastD 0)) = true) := by
          simp only [Bool.and_eq_true, decide_eq_true_eq]
          exact fun hc => huser hc.1
        rw [if_neg hcond]
        simp only [if_pos hlab]
        rw [ih (k + 1) (dictAppend d (r.getD 0 0) k) u,
          lookupD_dictAppend_ne d (r.getD 0 0) u k (fun hc => huser hc.symm)]
    · have hcond : ¬((decide ((k, r).2.getD 0 0 = u)
            && decide (0 < (k, r).2.getLastD 0)) = true) := by
        simp only [Bool.and_eq_true, decide_eq_true_eq]
        exact fun hc => hlab hc.2
      rw [if_neg hcond]
      simp only [if_neg hlab]
      exact ih (k + 1) d u



/-- Keys after `dictAppend`: unchanged for a seen user, the user appended at
the end otherwise (dict preserves first-seen order). -/
theorem keys_dictAppend : ∀ (t : List (Int × List Nat)) (u : Int) (i : Nat),
    (dictAppend t u i).map Prod.fst
      = if u ∈ t.map Prod.fst then t.map Prod.fst else t.map Prod.fst ++ [u] := by
  intro t
  induction t with
  | nil => intro u i; simp [dictAppend]
  | cons q t ih =>
    obtain ⟨v, l⟩ := q
    intro u i
    by_cases hvu : v = u
    · simp only [dictAppend, if_pos hvu, List.map_cons]
      rw [if_pos (by simp [hvu])]
    · simp only [dictAppend, if_neg hvu, List.map_cons, ih u i]
      by_cases hu : u ∈ t.map Prod.fst
      · rw [if_pos hu, if_pos (by simp [hu])]
      · have hcond2 : u ∉ ((v, l).1 :: t.map Prod.fst) := by
          simp only [List.mem_cons]
          rintro (hc | hc)
          · exact hvu hc.symm
          · exact hu hc
        rw [if_neg hu, if_neg hcond2]
        simp

theorem nodup_keys_dictAppend {d : List (Int × List Nat)} {u : Int} {i : Nat}
    (h : (d.map Prod.fst).Nodup) : ((dictAppend d u i).map Prod.fst).Nodup := by
  rw [keys_dictAppend]
  by_cases hu : u ∈ d.map Prod.fst
  · rwa [if_pos hu]
  · rw [if_neg hu, List.nodup_append]
    exact ⟨h, List.nodup_singleton u,
      fun a ha hb => hu ((List.mem_singleton.mp hb) ▸ ha)⟩

/-- Every entry of the dictionary stores exactly what lookup finds for its
key, provided keys are distinct; `dictAppend` preserves this. -/
theorem dict_sound_append : ∀ (d : List (Int × List Nat)) (u : Int) (i : Nat),
    (d.map Prod.fst).Nodup → (∀ p ∈ d, p.2 = lookupD d p.1) →
    ∀ p ∈ dictAppend d u i, p.2 = lookupD (dictAppend d u i) p.1 := by
  intro d
  induction d with
  | nil =>
    intro u i _ _ p hp
    simp only [dictAppend] at hp
    have := List.mem_singleton.mp hp
    subst this
    simp [lookupD]
  | cons q t ih =>
    obtain ⟨v, l⟩ := q
    intro u i h1 h2 p hp
    rw [List.map_cons, List.nodup_cons] at h1
    obtain ⟨hvt, ht⟩ := h1
    have hvt' : v ∉ List.map Prod.fst t := hvt
    have h2t : ∀ q ∈ t, q.2 = lookupD t q.1 := by
      intro q hqt
      have hne : v ≠ q.1 := by
        intro hc
        apply hvt'
        rw [hc]
        exact List.mem_map_of_mem Prod.fst hqt
      have hq := h2 q (List.mem_cons_of_mem _ hqt)
      rwa [lookupD_cons_ne hne] at hq
    by_cases hvu : v = u
    · subst hvu
      have hd : dictAppend ((v, l) :: t) v i = (v, l ++ [i]) :: t := by
        simp [dictAppend]
      rw [hd] at hp ⊢
      rcases List.mem_cons.mp hp with rfl | hpt
      · show l ++ [i] = lookupD ((v, l ++ [i]) :: t) v
        rw [lookupD_cons_eq rfl]
      · have hne : v ≠ p.1 := by
          intro hc
          apply hvt'
          rw [hc]
          exact List.mem_map_of_mem Prod.fst hpt
        rw [lookupD_cons_ne hne]
        exact h2t p hpt
    · have hd : dictAppend ((v, l) :: t) u i = (v, l) :: dictAppend t u i := by
        simp [dictAppend, hvu]
      rw [hd] at hp ⊢
      rcases List.mem_cons.mp hp with rfl | hpd
      · show l = lookupD ((v, l) :: dictAppend t u i) v
        rw [lookupD_cons_eq rfl]
      · have hp1 : p.1 ∈ (dictAppend t u i).map Prod.fst :=
          List.mem_map_of_mem Prod.fst hpd
        rw [keys_dictAppend] at hp1
        have hne : v ≠ p.1 := by
          intro hc
          by_cases hu : u ∈ t.map Prod.fst
          · rw [if_pos hu] at hp1
            exact hvt' (hc ▸ hp1)
          · rw [if_neg hu] at hp1
            rcases List.mem_append.mp hp1 with hl | hr
            · exact hvt' (hc ▸ hl)
            · exact hvu ((List.mem_singleton.mp hr) ▸ hc)
        rw [lookupD_cons_ne hne]
        exact ih u i ht h2t p hpd

/-- The `rowsbyuser` dictionary built by `extract_test_dataset` has distinct
keys and sound entries. -/
theorem buildUserRows_inv : ∀ (l : List (Nat × List Int)) (d : List (Int × List Nat)),
    (d.map Prod.fst).Nodup → (∀ p ∈ d, p.2 = lookupD d p.1) →
    (((l.foldl (fun d p =>
        if 0 < p.2.getLastD 0 then dictAppend d (p.2.getD 0 0) p.1 else d) d).map
          Prod.fst).Nodup) ∧
    (∀ p ∈ l.foldl (fun d p =>
        if 0 < p.2.getLastD 0 then dictAppend d (p.2.getD 0 0) p.1 else d) d,
      p.2 = lookupD (l.foldl (fun d p =>
        if 0 < p.2.getLastD 0 then dictAppend d (p.2.getD 0 0) p.1 else d) d) p.1) := by
  intro l
  induction l with
  | nil => intro d h1 h2; exact ⟨h1, h2⟩
  | cons x xs ih =>
    intro d h1 h2
    rw [List.foldl_cons]
    by_cases hx : 0 < x.2.getLastD 0
    · rw [if_pos hx]
      exact ih _ (nodup_keys_dictAppend h1) (dict_sound_append d _ _ h1 h2)
    · rw [if_neg hx]
      exact ih d h1 h2

/-- A nonempty lookup result is an entry of the dictionary. -/
theorem mem_of_lookupD_ne_nil : ∀ (d : List (Int × List Nat)) (u : Int),
    lookupD d u ≠ [] → (u, lookupD d u) ∈ d := by
  intro d
  induction d with
  | nil => intro u h; exact absurd rfl h
  | cons q t ih =>
    obtain ⟨v, l⟩ := q
    intro u h
    by_cases hvu : v = u
    · subst hvu
      rw [lookupD_cons_eq rfl] at h ⊢
      exact List.mem_cons_self _ _
    · rw [lookupD_cons_ne hvu] at h ⊢
      exact List.mem_cons_of_mem _ (ih u h)



/-- The dictionary's lookup agrees with the positive-row indices of the user. -/
theorem lookupD_buildUserRows (rows : List (List Int)) (u : Int) :
    lookupD (buildUserRows rows) u = posRowIndices rows u := by
  have h := lookupD_buildFold rows 0 [] u
  simpa [buildUserRows, posRowIndices, lookupD, List.enum] using h

/-- Every entry of `rowsbyuser` stores exactly its user's positive-row
indices. -/
theorem buildUserRows_entries (rows : List (List Int)) :
    ∀ p ∈ buildUserRows rows, p.2 = posRowIndices rows p.1 := by
  intro p hp
  have hinv := buildUserRows_inv rows.enum [] (by simp) (by intro q hq; simp at hq)
  have h2 : p.2 = lookupD (buildUserRows rows) p.1 := hinv.2 p hp
  rw [h2, lookupD_buildUserRows]

/-- Membership in the second loop of `extract_test_dataset`. -/
theorem mem_extractFold : ∀ (d : List (Int × List Nat)) (acc : List Nat)
    (nU mK : Nat) (x : Nat),
    (x ∈ d.foldl (fun acc p =>
        if p.2.length < nU + mK then acc
        else acc ++ p.2.drop (p.2.length - nU)) acc) ↔
    x ∈ acc ∨ ∃ p ∈ d, ¬(p.2.length < nU + mK) ∧ x ∈ p.2.drop (p.2.length - nU) := by
  intro d
  induction d with
  | nil => intro acc nU mK x; simp
  | cons q t ih =>
    intro acc nU mK x
    rw [List.foldl_cons]
    by_cases hq : q.2.length < nU + mK
    · rw [if_pos hq, ih]
      constructor
      · rintro (h | ⟨p, hp, h2, h3⟩)
        · exact Or.inl h
        · exact Or.inr ⟨p, List.mem_cons_of_mem _ hp, h2, h3⟩
      · rintro (h | ⟨p, hp, h2, h3⟩)
        · exact Or.inl h
        · rcases List.mem_cons.mp hp with rfl | hp2
          · exact absurd hq h2
          · exact Or.inr ⟨p, hp2, h2, h3⟩
    · rw [if_neg hq, ih]
      constructor
      · rintro (h | ⟨p, hp, h2, h3⟩)
        · rcases List.mem_append.mp h with h4 | h4
          · exact Or.inl h4
          · exact Or.inr ⟨q, List.mem_cons_self _ _, hq, h4⟩
        · exact Or.inr ⟨p, List.mem_cons_of_mem _ hp, h2, h3⟩
      · rintro (h | ⟨p, hp, h2, h3⟩)
        · exact Or.inl (List.mem_append_left _ h)
        · rcases List.mem_cons.mp hp with rfl | hp2
          · exact Or.inl (List.mem_append_right _ h3)
          · exact Or.inr ⟨p, hp2, h2, h3⟩

/-- `userrows[-1:]` holds exactly the last element. -/
theorem mem_drop_pred : ∀ (l : List Nat) (i : Nat), 1 ≤ l.length →
    (i ∈ l.drop (l.length - 1) ↔ l.getLast? = some i) := by
  intro l
  induction l with
  | nil => intro i h; simp at h
  | cons x t ih =>
    intro i h
    cases t with
    | nil => simp [List.getLast?_singleton, eq_comm]
    | cons y t2 =>
      have hlen : (x :: y :: t2).length - 1 = ((y :: t2).length - 1) + 1 := by
        simp only [List.length_cons]
        omega
      rw [hlen, List.drop_succ_cons, List.getLast?_cons_cons]
      exact ih i (by simp)

/-- C8: with `num_user_interactions = 1`, `min_keep_user_interactions = 1`,
`extract_test_dataset` moves exactly the last positive-labeled row of every
user holding at least two positive rows into the test table (users with a
single positive row contribute nothing), keeps all other rows in the
original, and shares the `idrange` with the test table. -/
theorem c8_extract_test_dataset (rows : List (List Int)) (idr : List Int) :
    (∀ i : Nat, i ∈ extractIndices rows 1 1 ↔
      ∃ u : Int, 2 ≤ (posRowIndices rows u).length ∧
        (posRowIndices rows u).getLast? = some i) ∧
    (extractTestDataset rows idr 1 1).1.1
      = (extractIndices rows 1 1).map (fun i => rows.getD i []) ∧
    (extractTestDataset rows idr 1 1).1.2 = idr ∧
    (extractTestDataset rows idr 1 1).2
      = (rows.enum.filter fun p =>
          decide (p.1 ∉ extractIndices rows 1 1)).map Prod.snd := by
  refine ⟨fun i => ?_, rfl, rfl, rfl⟩
  rw [show extractIndices rows 1 1
      = (buildUserRows rows).foldl (fun acc p =>
          if p.2.length < 1 + 1 then acc
          else acc ++ p.2.drop (p.2.length - 1)) [] from rfl]
  rw [mem_extractFold]
  simp only [List.not_mem_nil, false_or]
  constructor
  · rintro ⟨p, hp, h2, h3⟩
    have hpe : p.2 = posRowIndices rows p.1 := buildUserRows_entries rows p hp
    refine ⟨p.1, ?_, ?_⟩
    · rw [← hpe]
      omega
    · rw [← hpe]
      exact (mem_drop_pred p.2 i (by omega)).mp h3
  · rintro ⟨u, hlen, hlast⟩
    have hne : posRowIndices rows u ≠ [] := by
      intro hc
      rw [hc] at hlen
      simp at hlen
    have hlk : lookupD (buildUserRows rows) u = posRowIndices rows u :=
      lookupD_buildUserRows rows u
    have hmem : (u, lookupD (buildUserRows rows) u) ∈ buildUserRows rows :=
      mem_of_lookupD_ne_nil _ u (by rw [hlk]; exact hne)
    rw [hlk] at hmem
    refine ⟨(u, posRowIndices rows u), hmem, by simp only []; omega, ?_⟩
    exact (mem_drop_pred (posRowIndices rows u) i (by omega)).mpr hlast


end NNRec
